import Mathlib

/-! # Verification of the magic-square generator

A shallow embedding of the word-magic-square generator (`src/main.rs` and
`src/dictionary.rs`): a `Dictionary` of words with exact membership and
wildcard-template search, and a `MagicSquare` grid filled by recursive
backtracking.

Modelling conventions:
* Rust strings are modelled as `List Char` (one entry per character);
  `str::to_lowercase` is modelled character-wise by `Char.toLower`.
* `HashSet<String>` is modelled as a `List (List Char)` queried by
  membership; `HashSet::insert` appends only when the element is absent.
* Panics (out-of-range `Vec` indexing, `Option::unwrap` on `None`) are
  modelled by `Option`/a dedicated `panic` outcome.
* The recursion of `fill_helper` is modelled with an explicit `fuel`
  parameter counting the stack frames the Rust recursion may use; the
  `timeout` outcome means the execution needed more frames than `fuel`.
  A run of the Rust program corresponds to any sufficiently large `fuel`.
* I/O (`File::open`, `Command::output`, progress rendering) is modelled by
  passing the observed result of the external operation as a parameter;
  `clear_and_print` has no effect on the state and is dropped.
-/

namespace MagicSquareRepo

/-! ## Dictionary (`src/main.rs` lines 13-107) -/

/-- Model of `Dictionary { words: HashSet<String> }`, the word set modelled as a
list queried by membership. -/
structure Dictionary where
  words : List (List Char)
deriving DecidableEq

/-- Model of `Dictionary::contains`: exact membership in the word set. -/
def Dictionary.contains (d : Dictionary) (word : List Char) : Bool :=
  d.words.contains word

/-- The character loop of the closure inside `search_with_template`:
walk the template characters against an iterator over the word's
characters; a wildcard `'_'` consumes one word character, anything else
must equal the next word character (`chars.next() != Some(c)` fails). -/
def templateLoop : List Char → List Char → Bool
  | [], _ => true
  | c :: tcs, ws =>
    if c = '_' then templateLoop tcs ws.tail
    else
      match ws with
      | [] => false
      | w :: ws' => if w = c then templateLoop tcs ws' else false

/-- The filter predicate of `search_with_template`: short-circuit on
length, then run the character loop (`tmp` is the already-lowercased
template). -/
def wordMatchesTemplate (tmp w : List Char) : Bool :=
  if w.length ≠ tmp.length then false else templateLoop tmp w

/-- Model of `Dictionary::search_with_template`: lowercase the template, keep every
stored word that matches it. -/
def Dictionary.search_with_template (d : Dictionary) (template : List Char) :
    List (List Char) :=
  let tmp := template.map Char.toLower
  d.words.filter (fun word => wordMatchesTemplate tmp word)

/-- Model of `Dictionary::count_with_template`: the length of the search result. -/
def Dictionary.count_with_template (d : Dictionary) (template : List Char) : Nat :=
  (d.search_with_template template).length

/-- Model of `HashSet::insert` on the list model: append the word when absent. -/
def hsInsert (ws : List (List Char)) (w : List Char) : List (List Char) :=
  if w ∈ ws then ws else ws ++ [w]

/-- The line-reading loop of `Dictionary::from_file`: each line is itself
an `io::Result<String>`; the first line error aborts with that error,
otherwise lines are inserted into the set in order. -/
def fromFileLoop (acc : List (List Char)) :
    List (Except String (List Char)) → Except String (List (List Char))
  | [] => .ok acc
  | .error e :: _ => .error e
  | .ok line :: rest => fromFileLoop (hsInsert acc line) rest

/-- Model of `Dictionary::from_file`. The external file system is modelled by the
parameter: `.error e` when `File::open` fails, otherwise the list of
per-line read results.  Note: lines are inserted verbatim, there is no
lowercasing (the doc comment of the Rust function says "The words should
be lowercase", i.e. it trusts the file). -/
def Dictionary.from_file
    (opened : Except String (List (Except String (List Char)))) :
    Except String Dictionary :=
  match opened with
  | .error e => .error e
  | .ok lines =>
    match fromFileLoop [] lines with
    | .error e => .error e
    | .ok ws => .ok ⟨ws⟩

/-- The observed result of `Command::new("cat").arg(...).output()`:
the exit status and the `String::from_utf8` decoding of stdout. -/
instance {ε α : Type} [DecidableEq ε] [DecidableEq α] : DecidableEq (Except ε α)
  | .ok a, .ok b =>
    if h : a = b then .isTrue (by rw [h])
    else .isFalse (fun hc => by cases hc; exact h rfl)
  | .ok _, .error _ => .isFalse (fun hc => by cases hc)
  | .error _, .ok _ => .isFalse (fun hc => by cases hc)
  | .error a, .error b =>
    if h : a = b then .isTrue (by rw [h])
    else .isFalse (fun hc => by cases hc; exact h rfl)

structure CmdOutput where
  success : Bool
  stdout_utf8 : Except String (List Char)
deriving DecidableEq

/-- Strip one trailing `'\r'` (the `\r\n` handling of `str::lines`). -/
def stripCr (l : List Char) : List Char :=
  if l.getLast? = some '\r' then l.dropLast else l

/-- Split a character list at every `'\n'`, keeping all pieces. -/
def splitOnNl : List Char → List (List Char)
  | [] => [[]]
  | c :: rest =>
    if c = '\n' then [] :: splitOnNl rest
    else
      match splitOnNl rest with
      | [] => [[c]]
      | h :: t => (c :: h) :: t

/-- Model of `str::lines`: split at newlines, a final trailing line terminator
produces no extra empty line, and a trailing `'\r'` is stripped. -/
def rustLines (s : List Char) : List (List Char) :=
  let ps := splitOnNl s
  (if ps.getLast? = some [] then ps.dropLast else ps).map stripCr

/-- Model of `Dictionary::from_os_dict`.  The external process is modelled by the
parameter; on success the stdout is split into lines, each line is
lowercased, and the lines are collected into the word set. -/
def Dictionary.from_os_dict (cmd : Except String CmdOutput) :
    Except String Dictionary :=
  match cmd with
  | .error e => .error e
  | .ok out =>
    if ¬ out.success then .error "Could not read OS dictionary"
    else
      match out.stdout_utf8 with
      | .error e => .error e
      | .ok s =>
        .ok ⟨((rustLines s).map (fun l => l.map Char.toLower)).foldl hsInsert []⟩

/-! ## Template-matching characterisation lemmas -/

theorem templateLoop_iff (tmp : List Char) :
    ∀ w : List Char, w.length = tmp.length →
      (templateLoop tmp w = true ↔
        ∀ (i : Nat) (c : Char), tmp[i]? = some c → c ≠ '_' → w[i]? = some c) := by
  induction tmp with
  | nil =>
    intro w hw
    simp [templateLoop]
  | cons c tcs ih =>
    intro w hw
    match w with
    | [] => simp at hw
    | x :: ws =>
      simp only [List.length_cons, Nat.succ.injEq] at hw
      by_cases hc : c = '_'
      · subst hc
        have hT : templateLoop ('_' :: tcs) (x :: ws) = templateLoop tcs ws := rfl
        rw [hT, ih ws hw]
        constructor
        · intro h i ch hch hne
          match i with
          | 0 => simp at hch; exact absurd hch.symm hne
          | i + 1 =>
            simp only [List.getElem?_cons_succ] at hch ⊢
            exact h i ch hch hne
        · intro h i ch hch hne
          have := h (i + 1) ch
          simp only [List.getElem?_cons_succ] at this
          exact this hch hne
      · by_cases hx : x = c
        · subst hx
          have hT : templateLoop (x :: tcs) (x :: ws) = templateLoop tcs ws := by
            simp [templateLoop, hc]
          rw [hT, ih ws hw]
          constructor
          · intro h i ch hch hne
            match i with
            | 0 => simp at hch ⊢; exact hch
            | i + 1 =>
              simp only [List.getElem?_cons_succ] at hch ⊢
              exact h i ch hch hne
          · intro h i ch hch hne
            have := h (i + 1) ch
            simp only [List.getElem?_cons_succ] at this
            exact this hch hne
        · have hT : templateLoop (c :: tcs) (x :: ws) = false := by
            simp [templateLoop, hc, hx]
          rw [hT]
          constructor
          · intro h; exact absurd h (by simp)
          · intro h
            have h0 := h 0 c (by simp) hc
            simp at h0
            exact absurd h0 hx

theorem wordMatchesTemplate_iff (tmp w : List Char) :
    wordMatchesTemplate tmp w = true ↔
      (w.length = tmp.length ∧
        ∀ (i : Nat) (c : Char), tmp[i]? = some c → c ≠ '_' → w[i]? = some c) := by
  unfold wordMatchesTemplate
  by_cases h : w.length = tmp.length
  · simp only [h, ne_eq, not_true_eq_false, if_neg, not_false_eq_true]
    rw [templateLoop_iff tmp w h]
    simp [h]
  · simp [h]

/-- A template with no wildcard matches exactly the words equal to it. -/
theorem wordMatchesTemplate_no_wildcard (tmp w : List Char)
    (hnw : ∀ c ∈ tmp, c ≠ '_') :
    (wordMatchesTemplate tmp w = true ↔ w = tmp) := by
  rw [wordMatchesTemplate_iff]
  constructor
  · rintro ⟨hlen, hall⟩
    apply List.ext_getElem?
    intro i
    rcases h : tmp[i]? with _ | c
    · rw [List.getElem?_eq_none_iff] at h ⊢
      omega
    · exact hall i c h (hnw c (List.getElem?_mem h))
  · rintro rfl
    refine ⟨rfl, fun i c h _ => h⟩

theorem mem_search_iff (d : Dictionary) (t w : List Char) :
    w ∈ d.search_with_template t ↔
      w ∈ d.words ∧ wordMatchesTemplate (t.map Char.toLower) w = true := by
  unfold Dictionary.search_with_template
  simp [List.mem_filter]

theorem count_with_template_pos (d : Dictionary) (t : List Char) :
    0 < d.count_with_template t ↔
      ∃ w ∈ d.words, wordMatchesTemplate (t.map Char.toLower) w = true := by
  unfold Dictionary.count_with_template
  rw [List.length_pos_iff_exists_mem]
  constructor
  · rintro ⟨w, hw⟩
    rw [mem_search_iff] at hw
    exact ⟨w, hw⟩
  · rintro ⟨w, hw, hm⟩
    exact ⟨w, (mem_search_iff d t w).2 ⟨hw, hm⟩⟩

theorem contains_iff_mem (d : Dictionary) (w : List Char) :
    d.contains w = true ↔ w ∈ d.words := by
  unfold Dictionary.contains
  exact List.elem_iff

/-! ## MagicSquare (`src/main.rs` lines 131-308) -/

/-- Model of `MagicSquare { square: Vec<Vec<char>>, dict: Dictionary, _attempt: usize }`. -/
structure MagicSquare where
  square : List (List Char)
  dict : Dictionary
  _attempt : Nat
deriving DecidableEq

/-- Model of `MagicSquare::empty`: a `rows × cols` grid of `'_'`. -/
def MagicSquare.empty (rows cols : Nat) (dict : Dictionary) : MagicSquare :=
  { square := List.replicate rows (List.replicate cols '_')
    dict := dict
    _attempt := 0 }

/-- Model of `MagicSquare::set`: `self.square[row][col] = c`.  `none` models the
panic of out-of-range `Vec` indexing. -/
def MagicSquare.set (m : MagicSquare) (row col : Nat) (c : Char) :
    Option MagicSquare :=
  match m.square[row]? with
  | none => none
  | some r =>
    if col < r.length then
      some { m with square := m.square.set row (r.set col c) }
    else none

/-- Model of `MagicSquare::get`: `self.square[row][col]`.  `none` models the panic
of out-of-range `Vec` indexing. -/
def MagicSquare.get (m : MagicSquare) (row col : Nat) : Option Char :=
  match m.square[row]? with
  | none => none
  | some r => r[col]?

/-- Row scan of `find_first_empty_square`, carrying the row index. -/
def findFirstAux : List (List Char) → Nat → Option (Nat × Nat)
  | [], _ => none
  | r :: rest, i =>
    match r.findIdx? (fun c => c = '_') with
    | some j => some (i, j)
    | none => findFirstAux rest (i + 1)

/-- Model of `MagicSquare::find_first_empty_square`: first `'_'` cell in row-major
order. -/
def MagicSquare.find_first_empty_square (m : MagicSquare) : Option (Nat × Nat) :=
  findFirstAux m.square 0

/-- Model of `MagicSquare::get_row` (panics when `row` is out of range). -/
def MagicSquare.get_row (m : MagicSquare) (row : Nat) : Option (List Char) :=
  m.square[row]?

/-- The column read `self.square.iter().map(|r| r[col])`, which panics as
soon as some row is shorter than `col + 1`. -/
def colAux : List (List Char) → Nat → Option (List Char)
  | [], _ => some []
  | r :: rest, col =>
    match r[col]? with
    | none => none
    | some c => (colAux rest col).map (fun l => c :: l)

/-- Model of `MagicSquare::get_col`. -/
def MagicSquare.get_col (m : MagicSquare) (col : Nat) : Option (List Char) :=
  colAux m.square col

/-- Model of `MagicSquare::is_valid_word_or_template`: an exact dictionary word, or
a template with at least one match. -/
def MagicSquare.is_valid_word_or_template (m : MagicSquare) (word : List Char) :
    Bool :=
  m.dict.contains word || decide (0 < m.dict.count_with_template word)

/-- The row/column substitution `ww.iter().enumerate().map(|(i, &x)| if
i == col { c } else { x })`. -/
def substAt (ww : List Char) (pos : Nat) (c : Char) : List Char :=
  ww.enum.map (fun p => if p.1 = pos then c else p.2)

/-- Model of `MagicSquare::is_valid_letter`: substitute `c` into the cell's row and
column and require both probe strings to be valid words-or-templates.
`none` models a panic inside `get_row`/`get_col`. -/
def MagicSquare.is_valid_letter (m : MagicSquare) (row col : Nat) (c : Char) :
    Option Bool :=
  match m.get_row row with
  | none => none
  | some ww =>
    if ¬ m.is_valid_word_or_template (substAt ww col c) then some false
    else
      match m.get_col col with
      | none => none
      | some ww' =>
        if ¬ m.is_valid_word_or_template (substAt ww' row c) then some false
        else some true

/-- The alphabet `'a'..='z'` iterated by the letter loop. -/
def alphabet : List Char :=
  (List.range 26).map (fun i => Char.ofNat ('a'.toNat + i))

/-- Outcome of a (modelled) run of `fill_helper`/`fill`:
`done m res` is a normal return with final state `m`, `panic` a Rust
panic, `timeout` an execution needing more stack frames than the fuel
allowed (never produced when the fuel is at least the recursion depth). -/
inductive FillOutcome where
  | timeout
  | panic
  | done (m : MagicSquare) (res : Except String Unit)
deriving DecidableEq

/-- The `for c in 'a'..='z'` loop body of `fill_helper` (`main.rs` lines
215-232): try each remaining letter; on a valid letter set it and recurse
(`recur` is `fill_helper` at the next cell with one fewer stack frame);
on exhaustion reset the cell to `'_'` and report the failing coordinates.
`clear_and_print` only renders and is dropped. -/
def tryLetters (recur : MagicSquare → FillOutcome) (m : MagicSquare)
    (row col : Nat) : List Char → FillOutcome
  | [] =>
    match m.set row col '_' with
    | none => .panic
    | some m' => .done m' (.error s!"Could not fill square at ({row}, {col})")
  | c :: rest =>
    match m.is_valid_letter row col c with
    | none => .panic
    | some false => tryLetters recur m row col rest
    | some true =>
      match m.set row col c with
      | none => .panic
      | some m1 =>
        match recur m1 with
        | .timeout => .timeout
        | .panic => .panic
        | .done m2 (.ok _) => .done m2 (.ok ())
        | .done m2 (.error _) => tryLetters recur m2 row col rest

/-- Model of `MagicSquare::fill_helper`, with explicit stack-frame fuel: done when
`row` reaches the number of rows, move to the next row at the end of a
row, otherwise run the letter loop on the current cell. -/
def fill_helper (fuel : Nat) (m : MagicSquare) (row col : Nat) : FillOutcome :=
  match fuel with
  | 0 => .timeout
  | fuel + 1 =>
    if row = m.square.length then .done m (.ok ())
    else
      match m.square[row]? with
      | none => .panic
      | some r =>
        if col = r.length then fill_helper fuel m (row + 1) 0
        else tryLetters (fun m' => fill_helper fuel m' row (col + 1)) m row col
          alphabet

/-- Model of `MagicSquare::fill`: `find_first_empty_square().unwrap()` — a `None`
(no `'_'` cell anywhere) panics — then `fill_helper` from that cell. -/
def MagicSquare.fill (fuel : Nat) (m : MagicSquare) : FillOutcome :=
  match m.find_first_empty_square with
  | none => .panic
  | some (row, col) => fill_helper fuel m row col

/-! ## Helpers for stating the claims -/

/-- The cell contents at `(row, col)` of a raw grid ( `none` out of range). -/
def getCell (g : List (List Char)) (row col : Nat) : Option Char :=
  match g[row]? with
  | none => none
  | some r => r[col]?

/-- Row-major (reading) order on positions. -/
def posLt (p q : Nat × Nat) : Prop :=
  p.1 < q.1 ∨ (p.1 = q.1 ∧ p.2 < q.2)

instance (p q : Nat × Nat) : Decidable (posLt p q) := by
  unfold posLt; infer_instance

/-- The shape of a grid: the list of its row lengths. -/
def gridShape (g : List (List Char)) : List Nat :=
  g.map List.length

/-- The externally observable part of an outcome (grid cells and result
value, without the dictionary carried inside the state). -/
inductive ObsOutcome where
  | timeout
  | panic
  | done (square : List (List Char)) (res : Except String Unit)
deriving DecidableEq

/-- Project an outcome to its observable part. -/
def FillOutcome.observe : FillOutcome → ObsOutcome
  | .timeout => .timeout
  | .panic => .panic
  | .done m res => .done m.square res

/-! ## Basic lemmas about the grid operations -/

theorem getCell_eq_bind (g : List (List Char)) (i j : Nat) :
    getCell g i j = (g[i]?).bind (fun r => r[j]?) := by
  unfold getCell
  cases g[i]? <;> rfl

theorem gridShape_getElem? (g : List (List Char)) (i : Nat) :
    (gridShape g)[i]? = (g[i]?).map List.length := by
  unfold gridShape
  rw [List.getElem?_map]

theorem set_spec {m m' : MagicSquare} {row col : Nat} {c : Char}
    (h : m.set row col c = some m') :
    m'.dict = m.dict ∧
    gridShape m'.square = gridShape m.square ∧
    getCell m'.square row col = some c ∧
    (∀ i j : Nat, ¬(i = row ∧ j = col) →
      getCell m'.square i j = getCell m.square i j) := by
  unfold MagicSquare.set at h
  rcases hr : m.square[row]? with _ | r
  · rw [hr] at h; exact absurd h (by simp)
  · rw [hr] at h
    simp only at h
    by_cases hcol : col < r.length
    · rw [if_pos hcol] at h
      have hm' : m' = { m with square := m.square.set row (r.set col c) } := by
        cases h; rfl
      subst hm'
      have hrowlt : row < m.square.length := by
        by_contra hge
        rw [List.getElem?_eq_none (by omega)] at hr
        exact absurd hr (by simp)
      refine ⟨rfl, ?_, ?_, ?_⟩
      · apply List.ext_getElem?
        intro n
        rw [gridShape_getElem?, gridShape_getElem?, List.getElem?_set]
        by_cases hn : row = n
        · subst hn
          rw [if_pos rfl, if_pos hrowlt, hr]
          simp [List.length_set]
        · rw [if_neg hn]
      · rw [getCell_eq_bind]
        simp [List.getElem?_set, hrowlt, hcol]
      · intro i j hij
        rw [getCell_eq_bind, getCell_eq_bind]
        by_cases hi : i = row
        · subst hi
          have hj : j ≠ col := fun hj => hij ⟨rfl, hj⟩
          simp only [List.getElem?_set, if_pos rfl, if_pos hrowlt, hr]
          simp [List.getElem?_set_ne (fun hc => hj hc.symm)]
        · rw [List.getElem?_set_ne (fun hc => hi hc.symm)]
    · rw [if_neg hcol] at h
      exact absurd h (by simp)

theorem set_bounds {m m' : MagicSquare} {row col : Nat} {c : Char}
    (h : m.set row col c = some m') :
    ∃ r, m.square[row]? = some r ∧ col < r.length := by
  unfold MagicSquare.set at h
  rcases hr : m.square[row]? with _ | r
  · rw [hr] at h; exact absurd h (by simp)
  · rw [hr] at h
    simp only at h
    by_cases hcol : col < r.length
    · exact ⟨r, rfl, hcol⟩
    · rw [if_neg hcol] at h
      exact absurd h (by simp)

theorem set_some_of_bounds (m : MagicSquare) {row col : Nat} (c : Char)
    {r : List Char} (hr : m.square[row]? = some r) (hcol : col < r.length) :
    ∃ m', m.set row col c = some m' := by
  unfold MagicSquare.set
  rw [hr]
  simp only
  rw [if_pos hcol]
  exact ⟨_, rfl⟩

theorem substAt_getElem? (ww : List Char) (pos : Nat) (c : Char) (j : Nat) :
    (substAt ww pos c)[j]? = (ww[j]?).map (fun x => if j = pos then c else x) := by
  unfold substAt
  rw [List.getElem?_map, List.getElem?_enum]
  cases ww[j]? with
  | none => rfl
  | some x => simp

theorem substAt_length (ww : List Char) (pos : Nat) (c : Char) :
    (substAt ww pos c).length = ww.length := by
  unfold substAt
  rw [List.length_map, List.enum_length]

theorem set_list_eq_substAt (r : List Char) (col : Nat) (c : Char)
    (h : col < r.length) : r.set col c = substAt r col c := by
  apply List.ext_getElem?
  intro n
  rw [substAt_getElem?, List.getElem?_set]
  by_cases hn : col = n
  · subst hn
    rw [if_pos rfl, if_pos h, (List.getElem?_eq_getElem h : r[col]? = _)]
    simp
  · rw [if_neg hn]
    cases hr : r[n]? with
    | none => rfl
    | some x => rw [Option.map_some', if_neg (fun hc => hn hc.symm)]

theorem colAux_spec {g : List (List Char)} {col : Nat} {l : List Char}
    (h : colAux g col = some l) :
    l.length = g.length ∧ ∀ i : Nat, l[i]? = getCell g i col := by
  induction g generalizing l with
  | nil =>
    unfold colAux at h
    cases h
    exact ⟨rfl, fun i => by rw [getCell_eq_bind]; simp⟩
  | cons r rest ih =>
    unfold colAux at h
    rcases hrc : r[col]? with _ | c
    · rw [hrc] at h; exact absurd h (by simp)
    · rw [hrc] at h
      rcases hrest : colAux rest col with _ | l'
      · rw [hrest] at h; exact absurd h (by simp)
      · rw [hrest] at h
        have hl : l = c :: l' := by
          simp only [Option.map_some] at h; cases h; rfl
        subst hl
        obtain ⟨hlen, hcells⟩ := ih hrest
        refine ⟨by simp [hlen], ?_⟩
        intro i
        match i with
        | 0 => rw [getCell_eq_bind]; simp [hrc]
        | i + 1 =>
          rw [getCell_eq_bind]
          simp only [List.getElem?_cons_succ]
          rw [hcells i, getCell_eq_bind]

theorem colAux_some_of_shape {g : List (List Char)} {col cols : Nat}
    (hcols : ∀ r ∈ g, r.length = cols) (hlt : col < cols) :
    ∃ l, colAux g col = some l := by
  induction g with
  | nil => exact ⟨[], rfl⟩
  | cons r rest ih =>
    obtain ⟨l', hl'⟩ := ih (fun r hr => hcols r (by simp [hr]))
    have hr : col < r.length := by rw [hcols r (by simp)]; exact hlt
    have hc : r[col]? = some (r.get ⟨col, hr⟩) := List.getElem?_eq_getElem hr
    refine ⟨r.get ⟨col, hr⟩ :: l', ?_⟩
    unfold colAux
    rw [hc, hl']
    rfl

theorem colAux_congr {g g' : List (List Char)} {col : Nat}
    (hshape : gridShape g' = gridShape g)
    (hcells : ∀ i : Nat, getCell g' i col = getCell g i col) :
    colAux g' col = colAux g col := by
  induction g generalizing g' with
  | nil =>
    cases g' with
    | nil => rfl
    | cons r rest => exact absurd hshape (by simp [gridShape])
  | cons r rest ih =>
    cases g' with
    | nil => exact absurd hshape (by simp [gridShape])
    | cons r' rest' =>
      have h0 := hcells 0
      rw [getCell_eq_bind, getCell_eq_bind] at h0
      simp only [List.getElem?_cons_zero, Option.some_bind] at h0
      have hsh : gridShape rest' = gridShape rest := by
        unfold gridShape at hshape ⊢
        simp only [List.map_cons, List.cons.injEq] at hshape
        exact hshape.2
      have hrest : colAux rest' col = colAux rest col := by
        apply ih hsh
        intro i
        have := hcells (i + 1)
        rw [getCell_eq_bind, getCell_eq_bind] at this
        simp only [List.getElem?_cons_succ] at this
        rw [getCell_eq_bind, getCell_eq_bind]
        exact this
      unfold colAux
      rw [h0, hrest]

theorem posLt_ne {i j row col : Nat} (h : posLt (i, j) (row, col)) :
    ¬(i = row ∧ j = col) := by
  rintro ⟨rfl, rfl⟩
  unfold posLt at h
  simp at h

theorem posLt_iff {i j r c : Nat} :
    posLt (i, j) (r, c) ↔ (i < r ∨ (i = r ∧ j < c)) := by
  unfold posLt
  simp

theorem posLt_mono_col {i j row col col' : Nat} (h : posLt (i, j) (row, col))
    (hc : col ≤ col') : posLt (i, j) (row, col') := by
  unfold posLt at h ⊢
  simp at h ⊢
  omega

theorem posLt_row_succ {i j row col col' : Nat} (h : posLt (i, j) (row, col)) :
    posLt (i, j) (row + 1, col') := by
  unfold posLt at h ⊢
  simp at h ⊢
  omega

/-! ## `find_first_empty_square` characterisation -/

theorem findFirstAux_spec :
    ∀ (g : List (List Char)) (i r c : Nat),
      findFirstAux g i = some (r, c) →
      ∃ k, r = i + k ∧ ∃ row, g[k]? = some row ∧ row[c]? = some '_' ∧
        (∀ j, j < c → ∀ ch, row[j]? = some ch → ch ≠ '_') ∧
        (∀ k', k' < k → ∀ row', g[k']? = some row' →
          ∀ (j : Nat) (ch : Char), row'[j]? = some ch → ch ≠ '_') := by
  intro g
  induction g with
  | nil => intro i r c h; exact absurd h (by simp [findFirstAux])
  | cons row0 rest ih =>
    intro i r c h
    unfold findFirstAux at h
    rcases hf : row0.findIdx? (fun ch => ch = '_') with _ | j
    · rw [hf] at h
      simp only at h
      obtain ⟨k, hk, row, hrow, hcc, hbefore, hprev⟩ := ih (i + 1) r c h
      refine ⟨k + 1, by omega, row, by simpa using hrow, hcc, hbefore, ?_⟩
      intro k' hk' row' hrow' j' ch hch
      match k' with
      | 0 =>
        simp at hrow'
        subst hrow'
        rw [List.findIdx?_eq_none_iff] at hf
        intro heq
        subst heq
        have := hf '_' (List.getElem?_mem hch)
        simp at this
      | k' + 1 =>
        simp at hrow'
        exact hprev k' (by omega) row' hrow' j' ch hch
    · rw [hf] at h
      simp only at h
      have hir : i = r ∧ j = c := by
        have := h
        simp at this
        exact this
      obtain ⟨hi, hj⟩ := hir
      subst hi; subst hj
      rw [List.findIdx?_eq_some_iff_getElem] at hf
      obtain ⟨hlt, hp, hmin⟩ := hf
      simp at hp
      refine ⟨0, by omega, row0, by simp, ?_, ?_, ?_⟩
      · rw [List.getElem?_eq_getElem hlt, hp]
      · intro j' hj' ch hch
        have hne := hmin j' hj'
        simp at hne
        have : ch = row0[j'] := by
          rw [List.getElem?_eq_getElem (by omega)] at hch
          exact (Option.some.injEq _ _ ▸ hch).symm ▸ rfl
        intro heq
        rw [List.getElem?_eq_getElem (by omega)] at hch
        have hv : row0[j'] = ch := by
          have := hch
          simp at this
          exact this
        rw [heq] at hv
        exact hne hv
      · intro k' hk'
        omega

theorem findFirstAux_none :
    ∀ (g : List (List Char)) (i : Nat), findFirstAux g i = none →
      ∀ (k : Nat) (row : List Char), g[k]? = some row →
        ∀ (j : Nat) (ch : Char), row[j]? = some ch → ch ≠ '_' := by
  intro g
  induction g with
  | nil => intro i _ k row hrow; simp at hrow
  | cons row0 rest ih =>
    intro i h k row hrow j ch hch
    unfold findFirstAux at h
    rcases hf : row0.findIdx? (fun c => c = '_') with _ | j0
    · rw [hf] at h
      simp only at h
      match k with
      | 0 =>
        simp at hrow
        subst hrow
        rw [List.findIdx?_eq_none_iff] at hf
        intro heq
        subst heq
        have := hf '_' (List.getElem?_mem hch)
        simp at this
      | k + 1 =>
        simp at hrow
        exact ih (i + 1) h k row hrow j ch hch
    · rw [hf] at h
      simp at h

/-! ## Preservation lemmas for the backtracking search -/

theorem tryLetters_preserve
    {recur : MagicSquare → FillOutcome} {row col : Nat}
    (hrec : ∀ m1 m2 res, recur m1 = .done m2 res →
      gridShape m2.square = gridShape m1.square ∧ m2.dict = m1.dict ∧
      ∀ i j : Nat, posLt (i, j) (row, col + 1) →
        getCell m2.square i j = getCell m1.square i j) :
    ∀ (letters : List Char) (m m' : MagicSquare) (res : Except String Unit),
      tryLetters recur m row col letters = .done m' res →
      gridShape m'.square = gridShape m.square ∧ m'.dict = m.dict ∧
      ∀ i j : Nat, posLt (i, j) (row, col) →
        getCell m'.square i j = getCell m.square i j := by
  intro letters
  induction letters with
  | nil =>
    intro m m' res h
    unfold tryLetters at h
    rcases hs : m.set row col '_' with _ | ms
    · rw [hs] at h; exact absurd h (by simp)
    · rw [hs] at h
      simp only at h
      cases h
      obtain ⟨h1, h2, _, h4⟩ := set_spec hs
      exact ⟨h2, h1, fun i j hij => h4 i j (posLt_ne hij)⟩
  | cons c rest ih =>
    intro m m' res h
    unfold tryLetters at h
    rcases hv : m.is_valid_letter row col c with _ | b
    · rw [hv] at h; exact absurd h (by simp)
    · rw [hv] at h
      cases b with
      | false =>
        simp only at h
        exact ih m m' res h
      | true =>
        simp only at h
        rcases hs : m.set row col c with _ | m1
        · rw [hs] at h; exact absurd h (by simp)
        · rw [hs] at h
          simp only at h
          obtain ⟨hd1, hsh1, _, hc1⟩ := set_spec hs
          rcases hrc : recur m1 with _ | _ | ⟨m2, res2⟩
          · rw [hrc] at h; exact absurd h (by simp)
          · rw [hrc] at h; exact absurd h (by simp)
          · rw [hrc] at h
            obtain ⟨hsh2, hd2, hpre2⟩ := hrec m1 m2 res2 hrc
            cases res2 with
            | ok u =>
              simp only at h
              cases h
              refine ⟨hsh2.trans hsh1, hd2.trans hd1, ?_⟩
              intro i j hij
              rw [hpre2 i j (posLt_mono_col hij (by omega))]
              exact hc1 i j (posLt_ne hij)
            | error e =>
              simp only at h
              obtain ⟨hsh3, hd3, hpre3⟩ := ih m2 m' res h
              refine ⟨hsh3.trans (hsh2.trans hsh1), hd3.trans (hd2.trans hd1), ?_⟩
              intro i j hij
              rw [hpre3 i j hij, hpre2 i j (posLt_mono_col hij (by omega))]
              exact hc1 i j (posLt_ne hij)

theorem fill_helper_preserve :
    ∀ (fuel : Nat) (m : MagicSquare) (row col : Nat) (m' : MagicSquare)
      (res : Except String Unit),
      fill_helper fuel m row col = .done m' res →
      gridShape m'.square = gridShape m.square ∧ m'.dict = m.dict ∧
      ∀ i j : Nat, posLt (i, j) (row, col) →
        getCell m'.square i j = getCell m.square i j := by
  intro fuel
  induction fuel with
  | zero => intro m row col m' res h; exact absurd h (by simp [fill_helper])
  | succ fuel ih =>
    intro m row col m' res h
    unfold fill_helper at h
    by_cases hrow : row = m.square.length
    · rw [if_pos hrow] at h
      cases h
      exact ⟨rfl, rfl, fun _ _ _ => rfl⟩
    · rw [if_neg hrow] at h
      rcases hr : m.square[row]? with _ | r
      · rw [hr] at h; exact absurd h (by simp)
      · rw [hr] at h
        simp only at h
        by_cases hcol : col = r.length
        · rw [if_pos hcol] at h
          obtain ⟨h1, h2, h3⟩ := ih m (row + 1) 0 m' res h
          exact ⟨h1, h2, fun i j hij => h3 i j (posLt_row_succ hij)⟩
        · rw [if_neg hcol] at h
          exact tryLetters_preserve
            (fun m1 m2 res2 hr2 => ih m1 row (col + 1) m2 res2 hr2)
            alphabet m m' res h

/-- On a failed run every cell is either unchanged or reset to `'_'`
(`fill_helper` resets exactly the cells it wrote, bottom-up). -/
theorem tryLetters_err
    {recur : MagicSquare → FillOutcome} {row col : Nat}
    (hrec : ∀ m1 m2 e, recur m1 = .done m2 (.error e) →
      ∀ i j : Nat, getCell m2.square i j = getCell m1.square i j ∨
        getCell m2.square i j = some '_') :
    ∀ (letters : List Char) (m m' : MagicSquare) (e : String),
      tryLetters recur m row col letters = .done m' (.error e) →
      (∀ i j : Nat, getCell m'.square i j = getCell m.square i j ∨
        getCell m'.square i j = some '_') ∧
      getCell m'.square row col = some '_' := by
  intro letters
  induction letters with
  | nil =>
    intro m m' e h
    unfold tryLetters at h
    rcases hs : m.set row col '_' with _ | ms
    · rw [hs] at h; exact absurd h (by simp)
    · rw [hs] at h
      simp only at h
      cases h
      obtain ⟨_, _, h3, h4⟩ := set_spec hs
      refine ⟨?_, h3⟩
      intro i j
      by_cases hij : i = row ∧ j = col
      · obtain ⟨rfl, rfl⟩ := hij
        exact Or.inr h3
      · exact Or.inl (h4 i j hij)
  | cons c rest ih =>
    intro m m' e h
    unfold tryLetters at h
    rcases hv : m.is_valid_letter row col c with _ | b
    · rw [hv] at h; exact absurd h (by simp)
    · rw [hv] at h
      cases b with
      | false =>
        simp only at h
        exact ih m m' e h
      | true =>
        simp only at h
        rcases hs : m.set row col c with _ | m1
        · rw [hs] at h; exact absurd h (by simp)
        · rw [hs] at h
          simp only at h
          obtain ⟨_, _, _, hc1⟩ := set_spec hs
          rcases hrc : recur m1 with _ | _ | ⟨m2, res2⟩
          · rw [hrc] at h; exact absurd h (by simp)
          · rw [hrc] at h; exact absurd h (by simp)
          · rw [hrc] at h
            cases res2 with
            | ok u =>
              simp only at h
              exact absurd h (by simp)
            | error e2 =>
              simp only at h
              obtain ⟨hall, hrc'⟩ := ih m2 m' e h
              have hR2 := hrec m1 m2 e2 hrc
              refine ⟨?_, hrc'⟩
              intro i j
              by_cases hij : i = row ∧ j = col
              · obtain ⟨rfl, rfl⟩ := hij
                exact Or.inr hrc'
              · rcases hall i j with h5 | h5
                · rcases hR2 i j with h6 | h6
                  · exact Or.inl (h5.trans (h6.trans (hc1 i j hij)))
                  · exact Or.inr (h5.trans h6)
                · exact Or.inr h5

theorem fill_helper_err :
    ∀ (fuel : Nat) (m : MagicSquare) (row col : Nat) (m' : MagicSquare)
      (e : String),
      fill_helper fuel m row col = .done m' (.error e) →
      ∀ i j : Nat, getCell m'.square i j = getCell m.square i j ∨
        getCell m'.square i j = some '_' := by
  intro fuel
  induction fuel with
  | zero => intro m row col m' e h; exact absurd h (by simp [fill_helper])
  | succ fuel ih =>
    intro m row col m' e h
    unfold fill_helper at h
    by_cases hrow : row = m.square.length
    · rw [if_pos hrow] at h
      exact absurd h (by simp)
    · rw [if_neg hrow] at h
      rcases hr : m.square[row]? with _ | r
      · rw [hr] at h; exact absurd h (by simp)
      · rw [hr] at h
        simp only at h
        by_cases hcol : col = r.length
        · rw [if_pos hcol] at h
          exact ih m (row + 1) 0 m' e h
        · rw [if_neg hcol] at h
          exact (tryLetters_err
            (fun m1 m2 e2 hr2 => ih m1 row (col + 1) m2 e2 hr2)
            alphabet m m' e h).1

/-! ## The alphabet, full-word validity, and shape helpers -/

theorem alphabet_no_wildcard : ∀ c ∈ alphabet, c ≠ '_' := by decide

theorem alphabet_toLower : ∀ c ∈ alphabet, Char.toLower c = c := by decide

theorem map_toLower_self {s : List Char} (h : ∀ ch ∈ s, Char.toLower ch = ch) :
    s.map Char.toLower = s := by
  induction s with
  | nil => rfl
  | cons x xs ih =>
    simp only [List.map_cons, List.cons.injEq]
    exact ⟨h x (by simp), ih (fun ch hch => h ch (by simp [hch]))⟩

/-- A probe string consisting only of search letters that is accepted by
`is_valid_word_or_template` is an exact dictionary word: with no wildcard
left, a positive template count forces a stored word equal to the probe. -/
theorem contains_of_valid_full {m : MagicSquare} {s : List Char}
    (hall : ∀ ch ∈ s, ch ∈ alphabet)
    (hv : m.is_valid_word_or_template s = true) :
    m.dict.contains s = true := by
  unfold MagicSquare.is_valid_word_or_template at hv
  rw [Bool.or_eq_true] at hv
  rcases hv with hv | hv
  · exact hv
  · have hcount : 0 < m.dict.count_with_template s := of_decide_eq_true hv
    rw [count_with_template_pos] at hcount
    obtain ⟨w, hw, hmatch⟩ := hcount
    have hmap : s.map Char.toLower = s :=
      map_toLower_self (fun ch hch => alphabet_toLower ch (hall ch hch))
    rw [hmap] at hmatch
    rw [wordMatchesTemplate_no_wildcard s w
      (fun ch hch => alphabet_no_wildcard ch (hall ch hch))] at hmatch
    subst hmatch
    exact (contains_iff_mem m.dict w).2 hw

theorem lt_of_getElem?_some {α : Type} {l : List α} {i : Nat} {a : α}
    (h : l[i]? = some a) : i < l.length := by
  by_contra hge
  rw [List.getElem?_eq_none (by omega)] at h
  exact absurd h (by simp)

theorem rowlen_of_shape {g : List (List Char)} {rows cols i : Nat}
    {r : List Char} (hsh : gridShape g = List.replicate rows cols)
    (hr : g[i]? = some r) : r.length = cols ∧ i < rows := by
  have h1 : (gridShape g)[i]? = some r.length := by
    rw [gridShape_getElem?, hr]; rfl
  rw [hsh, List.getElem?_replicate] at h1
  by_cases hi : i < rows
  · rw [if_pos hi] at h1
    simp at h1
    exact ⟨h1.symm, hi⟩
  · rw [if_neg hi] at h1
    exact absurd h1 (by simp)

theorem length_of_shape {g : List (List Char)} {rows cols : Nat}
    (hsh : gridShape g = List.replicate rows cols) : g.length = rows := by
  have := congrArg List.length hsh
  simpa [gridShape] using this

theorem row_of_shape {g : List (List Char)} {rows cols i : Nat}
    (hsh : gridShape g = List.replicate rows cols) (hi : i < rows) :
    ∃ r, g[i]? = some r ∧ r.length = cols := by
  rcases hr : g[i]? with _ | r
  · rw [List.getElem?_eq_none_iff, length_of_shape hsh] at hr
    omega
  · exact ⟨r, rfl, (rowlen_of_shape hsh hr).1⟩

theorem getCell_some_of_shape {g : List (List Char)} {rows cols i j : Nat}
    (hsh : gridShape g = List.replicate rows cols) (hi : i < rows)
    (hj : j < cols) : ∃ ch, getCell g i j = some ch := by
  obtain ⟨r, hr, hrl⟩ := row_of_shape hsh hi
  rw [getCell_eq_bind, hr]
  have : j < r.length := by omega
  exact ⟨r.get ⟨j, this⟩, by simp [List.getElem?_eq_getElem this]⟩

theorem getCell_bounds {g : List (List Char)} {rows cols i j : Nat}
    {ch : Char} (hsh : gridShape g = List.replicate rows cols)
    (h : getCell g i j = some ch) : i < rows ∧ j < cols := by
  rw [getCell_eq_bind] at h
  rcases hr : g[i]? with _ | r
  · rw [hr] at h; exact absurd h (by simp)
  · rw [hr] at h
    simp only [Option.some_bind] at h
    obtain ⟨hrl, hi⟩ := rowlen_of_shape hsh hr
    exact ⟨hi, hrl ▸ lt_of_getElem?_some h⟩

theorem row_eq_of_getCell {g g' : List (List Char)} {i : Nat} {l : List Char}
    (hsh : gridShape g' = gridShape g) (hl : g[i]? = some l)
    (hc : ∀ j : Nat, getCell g' i j = getCell g i j) : g'[i]? = some l := by
  have hlen : (g'[i]?).map List.length = (g[i]?).map List.length := by
    rw [← gridShape_getElem?, ← gridShape_getElem?, hsh]
  rw [hl] at hlen
  rcases hl' : g'[i]? with _ | l'
  · rw [hl'] at hlen; exact absurd hlen (by simp)
  · rw [hl'] at hlen
    simp only [Option.map_some'] at hlen
    have hlen' : l'.length = l.length := by simpa using hlen
    have : l' = l := by
      apply List.ext_getElem?
      intro j
      have := hc j
      rw [getCell_eq_bind, getCell_eq_bind, hl, hl'] at this
      simpa using this
    rw [this]

theorem posLt_succ_col_iff {i j r c : Nat} :
    posLt (i, j) (r, c + 1) ↔ posLt (i, j) (r, c) ∨ (i = r ∧ j = c) := by
  unfold posLt
  simp only
  omega

theorem is_valid_letter_true_spec {m : MagicSquare} {row col : Nat} {c : Char}
    (h : m.is_valid_letter row col c = some true) :
    ∃ ww, m.get_row row = some ww ∧
      m.is_valid_word_or_template (substAt ww col c) = true ∧
      ∃ ww', m.get_col col = some ww' ∧
        m.is_valid_word_or_template (substAt ww' row c) = true := by
  unfold MagicSquare.is_valid_letter at h
  rcases hrw : m.get_row row with _ | ww
  · rw [hrw] at h; exact absurd h (by simp)
  · rw [hrw] at h
    simp only at h
    by_cases hv1 : m.is_valid_word_or_template (substAt ww col c) = true
    · rw [if_neg (by simp [hv1])] at h
      rcases hcl : m.get_col col with _ | ww'
      · rw [hcl] at h; exact absurd h (by simp)
      · rw [hcl] at h
        simp only at h
        by_cases hv2 : m.is_valid_word_or_template (substAt ww' row c) = true
        · exact ⟨ww, rfl, hv1, ww', rfl, hv2⟩
        · rw [if_pos (by simp [hv2])] at h
          exact absurd h (by simp)
    · rw [if_pos (by simp [hv1])] at h
      exact absurd h (by simp)

theorem set_rows {m m' : MagicSquare} {row col : Nat} {c : Char}
    (h : m.set row col c = some m') :
    ∃ r, m.square[row]? = some r ∧ col < r.length ∧
      m'.square[row]? = some (r.set col c) ∧
      ∀ i : Nat, i ≠ row → m'.square[i]? = m.square[i]? := by
  unfold MagicSquare.set at h
  rcases hr : m.square[row]? with _ | r
  · rw [hr] at h; exact absurd h (by simp)
  · rw [hr] at h
    simp only at h
    by_cases hcol : col < r.length
    · rw [if_pos hcol] at h
      have hm' : m' = { m with square := m.square.set row (r.set col c) } := by
        cases h; rfl
      subst hm'
      have hrowlt : row < m.square.length := lt_of_getElem?_some hr
      refine ⟨r, rfl, hcol, ?_, ?_⟩
      · simp [List.getElem?_set, hrowlt]
      · intro i hi
        exact List.getElem?_set_ne (fun hc => hi hc.symm)
    · rw [if_neg hcol] at h
      exact absurd h (by simp)

theorem getCell_none_of_shape {g : List (List Char)} {rows cols i j : Nat}
    (hsh : gridShape g = List.replicate rows cols)
    (h : rows ≤ i ∨ cols ≤ j) : getCell g i j = none := by
  rw [getCell_eq_bind]
  rcases hr : g[i]? with _ | r
  · rfl
  · obtain ⟨hrl, hi⟩ := rowlen_of_shape hsh hr
    rcases h with h | h
    · omega
    · simp only [Option.some_bind]
      exact List.getElem?_eq_none (by omega)

theorem mem_len_of_shape {g : List (List Char)} {rows cols : Nat}
    (hsh : gridShape g = List.replicate rows cols) :
    ∀ r ∈ g, r.length = cols := by
  intro r hr
  obtain ⟨i, hi⟩ := List.mem_iff_getElem?.1 hr
  exact (rowlen_of_shape hsh hi).1

/-! ## The solved-grid invariant -/

/-- Search invariant at position `(row, col)` of a `rows × cols` grid:
the shape is fixed, every cell strictly before the position in row-major
order holds a search letter, and every row and every column lying
entirely before the position is an exact dictionary word. -/
def Inv (d : Dictionary) (rows cols : Nat) (g : List (List Char))
    (row col : Nat) : Prop :=
  gridShape g = List.replicate rows cols ∧
  (∀ (i j : Nat) (ch : Char), getCell g i j = some ch →
    posLt (i, j) (row, col) → ch ∈ alphabet) ∧
  (∀ i : Nat, i < rows → (∀ j : Nat, j < cols → posLt (i, j) (row, col)) →
    ∃ l, g[i]? = some l ∧ d.contains l = true) ∧
  (∀ j : Nat, j < cols → (∀ i : Nat, i < rows → posLt (i, j) (row, col)) →
    ∃ l, colAux g j = some l ∧ d.contains l = true)

/-- Every row and every column of the grid is an exact dictionary word. -/
def AllWords (d : Dictionary) (rows cols : Nat) (g : List (List Char)) : Prop :=
  (∀ i : Nat, i < rows → ∃ l, g[i]? = some l ∧ d.contains l = true) ∧
  (∀ j : Nat, j < cols → ∃ l, colAux g j = some l ∧ d.contains l = true)

/-- Committing a valid letter to the current cell advances the invariant
from `(row, col)` to `(row, col + 1)`: when the commit completes the row
(respectively the column), the row probe (the column probe) validated by
`is_valid_letter` is exactly the new full row (column), contains only
search letters, and is therefore an exact dictionary word. -/
theorem Inv_step {d : Dictionary} {rows cols : Nat} {m m1 : MagicSquare}
    {row col : Nat} {c : Char}
    (hInv : Inv d rows cols m.square row col)
    (hd : m.dict = d)
    (hca : c ∈ alphabet)
    (hv : m.is_valid_letter row col c = some true)
    (hs : m.set row col c = some m1) :
    Inv d rows cols m1.square row (col + 1) := by
  obtain ⟨hsh, hbef, h3, h4⟩ := hInv
  obtain ⟨hd1, hsh1, hcell1, hne1⟩ := set_spec hs
  obtain ⟨r0, hr0, hcol0, hrow1, hrowne⟩ := set_rows hs
  obtain ⟨hr0len, hrowlt⟩ := rowlen_of_shape hsh hr0
  have hcollt : col < cols := by omega
  have hshape1 : gridShape m1.square = List.replicate rows cols :=
    hsh1.trans hsh
  obtain ⟨ww, hww, hv1, ww', hww', hv2⟩ := is_valid_letter_true_spec hv
  have hwwr0 : ww = r0 := by
    unfold MagicSquare.get_row at hww
    rw [hr0] at hww
    exact (Option.some.injEq _ _ ▸ hww.symm)
  subst hwwr0
  refine ⟨hshape1, ?_, ?_, ?_⟩
  · -- cells before (row, col+1) are search letters
    intro i j ch hch hlt
    rcases posLt_succ_col_iff.1 hlt with hlt' | ⟨rfl, rfl⟩
    · rw [hne1 i j (posLt_ne hlt')] at hch
      exact hbef i j ch hch hlt'
    · rw [hcell1] at hch
      have : ch = c := by simpa using hch.symm
      rw [this]
      exact hca
  · -- completed rows
    intro i hi hq
    by_cases hir : i = row
    · have hcc : col + 1 = cols := by
        by_contra hne
        have h2 : col + 1 < cols := by omega
        have h5 := hq (col + 1) h2
        rw [hir, posLt_iff] at h5
        omega
      refine ⟨ww.set col c, by rw [hir]; exact hrow1, ?_⟩
      rw [set_list_eq_substAt ww col c hcol0]
      rw [← hd]
      apply contains_of_valid_full ?_ hv1
      intro ch hch
      obtain ⟨j, hj⟩ := List.mem_iff_getElem?.1 hch
      rw [substAt_getElem?] at hj
      rcases hx : ww[j]? with _ | x
      · rw [hx] at hj; exact absurd hj (by simp)
      · rw [hx] at hj
        simp only [Option.map_some'] at hj
        have hjlt : j < ww.length := lt_of_getElem?_some hx
        by_cases hjc : j = col
        · rw [if_pos hjc] at hj
          have : ch = c := by simpa using hj.symm
          rw [this]; exact hca
        · rw [if_neg hjc] at hj
          have hchx : ch = x := by simpa using hj.symm
          subst hchx
          apply hbef row j ch ?_ ?_
          · rw [getCell_eq_bind, hr0]
            simpa using hx
          · rw [posLt_iff]
            exact Or.inr ⟨rfl, by omega⟩
    · have hq' : ∀ j : Nat, j < cols → posLt (i, j) (row, col) := by
        intro j hj
        have h5 := hq j hj
        rw [posLt_iff] at h5
        rw [posLt_iff]
        omega
      obtain ⟨l, hl, hcont⟩ := h3 i hi hq'
      exact ⟨l, by rw [hrowne i hir]; exact hl, hcont⟩
  · -- completed columns
    intro j hj hq
    have hrows : rows ≤ row + 1 := by
      by_contra hlt
      have h5 := hq (row + 1) (by omega)
      rw [posLt_iff] at h5
      omega
    have hjcol : j ≤ col := by
      have h5 := hq row (by omega)
      rw [posLt_iff] at h5
      omega
    by_cases hjc : j = col
    · rw [hjc]
      unfold MagicSquare.get_col at hww'
      obtain ⟨hwl, hwcells⟩ := colAux_spec hww'
      obtain ⟨l1, hl1⟩ :=
        colAux_some_of_shape (mem_len_of_shape hshape1) hcollt
      have hl1eq : l1 = substAt ww' row c := by
        obtain ⟨hl1len, hl1cells⟩ := colAux_spec hl1
        apply List.ext_getElem?
        intro i
        rw [hl1cells i, substAt_getElem?]
        by_cases hir : i = row
        · rw [hir, hcell1]
          rcases hy : ww'[row]? with _ | y
          · have hlt2 : row < ww'.length := by
              rw [hwl, length_of_shape hsh]
              omega
            have := List.getElem?_eq_getElem hlt2
            rw [hy] at this
            exact absurd this (by simp)
          · simp
        · rw [hne1 i col (fun hc => hir hc.1), ← hwcells i]
          rcases hy : ww'[i]? with _ | y
          · rfl
          · simp [hir]
      refine ⟨l1, hl1, ?_⟩
      rw [hl1eq, ← hd]
      apply contains_of_valid_full ?_ hv2
      intro ch hch
      obtain ⟨i, hi⟩ := List.mem_iff_getElem?.1 hch
      rw [substAt_getElem?] at hi
      rcases hy : ww'[i]? with _ | y
      · rw [hy] at hi; exact absurd hi (by simp)
      · rw [hy] at hi
        simp only [Option.map_some'] at hi
        have hilt : i < ww'.length := lt_of_getElem?_some hy
        rw [hwl, length_of_shape hsh] at hilt
        by_cases hir : i = row
        · rw [if_pos hir] at hi
          have : ch = c := by simpa using hi.symm
          rw [this]; exact hca
        · rw [if_neg hir] at hi
          have hchy : ch = y := by simpa using hi.symm
          subst hchy
          apply hbef i col ch ?_ ?_
          · rw [hwcells i] at hy
            exact hy
          · rw [posLt_iff]
            left
            omega
    · have hq' : ∀ i : Nat, i < rows → posLt (i, j) (row, col) := by
        intro i hi
        rw [posLt_iff]
        omega
      obtain ⟨l, hl, hcont⟩ := h4 j hj hq'
      refine ⟨l, ?_, hcont⟩
      rw [colAux_congr hsh1 (fun i => hne1 i j (fun hc => hjc hc.2))]
      exact hl

/-- The invariant at `(row, col)` only constrains cells strictly before
the position, so it survives a backtracked (failed) recursive call, which
preserves those cells. -/
theorem Inv_after_backtrack {d : Dictionary} {rows cols : Nat}
    {m m2 : MagicSquare} {row col : Nat}
    (hInv : Inv d rows cols m.square row col)
    (hsh2 : gridShape m2.square = gridShape m.square)
    (hpre : ∀ i j : Nat, posLt (i, j) (row, col) →
      getCell m2.square i j = getCell m.square i j) :
    Inv d rows cols m2.square row col := by
  obtain ⟨hsh, hbef, h3, h4⟩ := hInv
  refine ⟨hsh2.trans hsh, ?_, ?_, ?_⟩
  · intro i j ch hch hlt
    rw [hpre i j hlt] at hch
    exact hbef i j ch hch hlt
  · intro i hi hq
    obtain ⟨l, hl, hcont⟩ := h3 i hi hq
    refine ⟨l, ?_, hcont⟩
    apply row_eq_of_getCell hsh2 hl
    intro j
    by_cases hj : j < cols
    · exact hpre i j (hq j hj)
    · rw [getCell_none_of_shape (hsh2.trans hsh) (Or.inr (by omega)),
        getCell_none_of_shape hsh (Or.inr (by omega))]
  · intro j hj hq
    obtain ⟨l, hl, hcont⟩ := h4 j hj hq
    refine ⟨l, ?_, hcont⟩
    rw [colAux_congr hsh2 ?_]
    · exact hl
    · intro i
      by_cases hi : i < rows
      · exact hpre i j (hq i hi)
      · rw [getCell_none_of_shape (hsh2.trans hsh) (Or.inl (by omega)),
          getCell_none_of_shape hsh (Or.inl (by omega))]

/-- If the letter loop succeeds, the final grid has all rows and columns
in the dictionary (given the invariant at the current cell). -/
theorem tryLetters_success {d : Dictionary} {rows cols : Nat}
    {recur : MagicSquare → FillOutcome} {row col : Nat}
    (hrec : ∀ m1 m2 : MagicSquare, Inv d rows cols m1.square row (col + 1) →
      m1.dict = d → recur m1 = .done m2 (.ok ()) →
      AllWords d rows cols m2.square)
    (hpres : ∀ (m1 m2 : MagicSquare) (res : Except String Unit),
      recur m1 = .done m2 res →
      gridShape m2.square = gridShape m1.square ∧ m2.dict = m1.dict ∧
      ∀ i j : Nat, posLt (i, j) (row, col + 1) →
        getCell m2.square i j = getCell m1.square i j) :
    ∀ letters : List Char, (∀ c ∈ letters, c ∈ alphabet) →
      ∀ m m' : MagicSquare, Inv d rows cols m.square row col → m.dict = d →
        tryLetters recur m row col letters = .done m' (.ok ()) →
        AllWords d rows cols m'.square := by
  intro letters
  induction letters with
  | nil =>
    intro _ m m' hInv hd h
    unfold tryLetters at h
    rcases hs : m.set row col '_' with _ | ms
    · rw [hs] at h; exact absurd h (by simp)
    · rw [hs] at h
      simp only at h
      exact absurd h (by simp)
  | cons c rest ih =>
    intro hsub m m' hInv hd h
    unfold tryLetters at h
    rcases hv : m.is_valid_letter row col c with _ | b
    · rw [hv] at h; exact absurd h (by simp)
    · rw [hv] at h
      cases b with
      | false =>
        simp only at h
        exact ih (fun x hx => hsub x (by simp [hx])) m m' hInv hd h
      | true =>
        simp only at h
        rcases hs : m.set row col c with _ | m1
        · rw [hs] at h; exact absurd h (by simp)
        · rw [hs] at h
          simp only at h
          have hInv1 : Inv d rows cols m1.square row (col + 1) :=
            Inv_step ⟨hInv.1, hInv.2.1, hInv.2.2.1, hInv.2.2.2⟩ hd
              (hsub c (by simp)) hv hs
          have hd1 : m1.dict = d := (set_spec hs).1.trans hd
          rcases hrc : recur m1 with _ | _ | ⟨m2, res2⟩
          · rw [hrc] at h; exact absurd h (by simp)
          · rw [hrc] at h; exact absurd h (by simp)
          · rw [hrc] at h
            cases res2 with
            | ok u =>
              simp only at h
              have hm2 : m2 = m' := by
                have h6 := h
                simp at h6
                exact h6
              subst hm2
              exact hrec m1 m2 hInv1 hd1 hrc
            | error e =>
              simp only at h
              obtain ⟨hsh2, hd2, hpre2⟩ := hpres m1 m2 (.error e) hrc
              obtain ⟨hd1', hsh1, hcell1, hne1⟩ := set_spec hs
              have hInv2 : Inv d rows cols m2.square row col := by
                apply Inv_after_backtrack hInv (hsh2.trans hsh1)
                intro i j hlt
                rw [hpre2 i j (posLt_mono_col hlt (by omega))]
                exact hne1 i j (posLt_ne hlt)
              exact ih (fun x hx => hsub x (by simp [hx])) m2 m'
                hInv2 (hd2.trans hd1) h

/-- Lemma: `fill_helper` reaching the success base case implies all rows and
columns of the final grid are exact dictionary words (given the search
invariant at the starting cell). -/
theorem fill_helper_success {d : Dictionary} {rows cols : Nat} :
    ∀ (fuel : Nat) (m : MagicSquare) (row col : Nat) (m' : MagicSquare),
      Inv d rows cols m.square row col → m.dict = d →
      fill_helper fuel m row col = .done m' (.ok ()) →
      AllWords d rows cols m'.square := by
  intro fuel
  induction fuel with
  | zero =>
    intro m row col m' _ _ h
    exact absurd h (by simp [fill_helper])
  | succ fuel ih =>
    intro m row col m' hInv hd h
    unfold fill_helper at h
    by_cases hrow : row = m.square.length
    · rw [if_pos hrow] at h
      have hm : m = m' := by
        have h6 := h
        simp at h6
        exact h6
      subst hm
      have hrows : rows ≤ row := by
        rw [hrow, length_of_shape hInv.1]
      constructor
      · intro i hi
        exact hInv.2.2.1 i hi (fun j hj => by rw [posLt_iff]; left; omega)
      · intro j hj
        exact hInv.2.2.2 j hj (fun i hi => by rw [posLt_iff]; left; omega)
    · rw [if_neg hrow] at h
      rcases hr : m.square[row]? with _ | r
      · rw [hr] at h; exact absurd h (by simp)
      · rw [hr] at h
        simp only at h
        obtain ⟨hrl, hrowlt⟩ := rowlen_of_shape hInv.1 hr
        by_cases hcol : col = r.length
        · rw [if_pos hcol] at h
          have hcols : col = cols := hcol.trans hrl
          apply ih m (row + 1) 0 m' ?_ hd h
          obtain ⟨hsh, hbef, h3, h4⟩ := hInv
          refine ⟨hsh, ?_, ?_, ?_⟩
          · intro i j ch hch hlt
            rw [posLt_iff] at hlt
            apply hbef i j ch hch
            rw [posLt_iff]
            obtain ⟨_, hjlt⟩ := getCell_bounds hsh hch
            omega
          · intro i hi hq
            apply h3 i hi
            intro j hj
            have h5 := hq j hj
            rw [posLt_iff] at h5 ⊢
            omega
          · intro j hj hq
            apply h4 j hj
            intro i hi
            have h5 := hq i hi
            rw [posLt_iff] at h5 ⊢
            omega
        · rw [if_neg hcol] at h
          exact tryLetters_success
            (fun m1 m2 hI hd1 hr1 => ih m1 row (col + 1) m2 hI hd1 hr1)
            (fun m1 m2 res2 hr2 => fill_helper_preserve fuel m1 row (col + 1) m2 res2 hr2)
            alphabet (fun x hx => hx) m m' hInv hd h

/-! ## Stack-depth bound: sufficient fuel is never exhausted -/

theorem tryLetters_no_timeout {rows cols : Nat}
    {recur : MagicSquare → FillOutcome} {row col : Nat}
    (hrec : ∀ m1 : MagicSquare,
      gridShape m1.square = List.replicate rows cols → recur m1 ≠ .timeout)
    (hrecsh : ∀ (m1 m2 : MagicSquare) (res : Except String Unit),
      recur m1 = .done m2 res → gridShape m2.square = gridShape m1.square) :
    ∀ (letters : List Char) (m : MagicSquare),
      gridShape m.square = List.replicate rows cols →
      tryLetters recur m row col letters ≠ .timeout := by
  intro letters
  induction letters with
  | nil =>
    intro m hsh
    unfold tryLetters
    rcases hs : m.set row col '_' with _ | ms
    · simp
    · simp
  | cons c rest ih =>
    intro m hsh
    unfold tryLetters
    rcases hv : m.is_valid_letter row col c with _ | b
    · simp
    · cases b with
      | false => exact ih m hsh
      | true =>
        simp only
        rcases hs : m.set row col c with _ | m1
        · simp
        · simp only
          have hsh1 : gridShape m1.square = List.replicate rows cols :=
            (set_spec hs).2.1.trans hsh
          rcases hrc : recur m1 with _ | _ | ⟨m2, res2⟩
          · exact absurd hrc (by simpa using hrec m1 hsh1)
          · simp
          · cases res2 with
            | ok u => simp
            | error e =>
              have hsh2 : gridShape m2.square = List.replicate rows cols :=
                (hrecsh m1 m2 (.error e) hrc).trans hsh1
              simp only
              exact ih m2 hsh2

theorem fill_helper_no_timeout {rows cols : Nat} :
    ∀ (fuel : Nat) (m : MagicSquare) (row col : Nat),
      gridShape m.square = List.replicate rows cols →
      row ≤ rows → col ≤ cols →
      (rows - row) * (cols + 1) + (cols + 1 - col) ≤ fuel →
      fill_helper fuel m row col ≠ .timeout := by
  intro fuel
  induction fuel with
  | zero =>
    intro m row col _ _ hcol hfuel
    have : 1 ≤ cols + 1 - col := by omega
    omega
  | succ fuel ih =>
    intro m row col hsh hrow hcol hfuel
    unfold fill_helper
    by_cases hlen : row = m.square.length
    · rw [if_pos hlen]; simp
    · rw [if_neg hlen]
      rcases hr : m.square[row]? with _ | r
      · simp
      · simp only
        obtain ⟨hrl, hrowlt⟩ := rowlen_of_shape hsh hr
        by_cases hc : col = r.length
        · rw [if_pos hc]
          apply ih m (row + 1) 0 hsh (by omega) (by omega)
          have hfac : (rows - row) * (cols + 1) =
              (rows - (row + 1)) * (cols + 1) + (cols + 1) := by
            have h9 : rows - row = (rows - (row + 1)) + 1 := by omega
            rw [h9, Nat.succ_mul]
          have hcc : col = cols := by omega
          omega
        · rw [if_neg hc]
          apply tryLetters_no_timeout ?_ ?_ alphabet m hsh
          · intro m1 hsh1
            apply ih m1 row (col + 1) hsh1 (by omega) (by omega)
            have hcc : col < cols := by omega
            omega
          · intro m1 m2 res2 h2
            exact (fill_helper_preserve fuel m1 row (col + 1) m2 res2 h2).1

/-! ## The search depends on the dictionary only through membership -/

theorem contains_congr {d d' : Dictionary}
    (hdd : ∀ w, w ∈ d.words ↔ w ∈ d'.words) (w : List Char) :
    d.contains w = d'.contains w := by
  rcases hb : d'.contains w with _ | _
  · rcases hb2 : d.contains w with _ | _
    · rfl
    · rw [contains_iff_mem] at hb2
      rw [hdd] at hb2
      rw [← contains_iff_mem] at hb2
      rw [hb] at hb2
      exact absurd hb2 (by simp)
  · rw [contains_iff_mem] at hb ⊢
    rw [hdd]
    exact hb

theorem valid_congr {d d' : Dictionary}
    (hdd : ∀ w, w ∈ d.words ↔ w ∈ d'.words) {m n : MagicSquare}
    (hmd : m.dict = d) (hnd : n.dict = d') (w : List Char) :
    m.is_valid_word_or_template w = n.is_valid_word_or_template w := by
  unfold MagicSquare.is_valid_word_or_template
  rw [hmd, hnd, contains_congr hdd w]
  have hcnt : (0 < d.count_with_template w) ↔ (0 < d'.count_with_template w) := by
    rw [count_with_template_pos, count_with_template_pos]
    constructor
    · rintro ⟨x, hx, hmx⟩; exact ⟨x, (hdd x).1 hx, hmx⟩
    · rintro ⟨x, hx, hmx⟩; exact ⟨x, (hdd x).2 hx, hmx⟩
  have : decide (0 < d.count_with_template w) =
      decide (0 < d'.count_with_template w) := by
    rcases hb : decide (0 < d'.count_with_template w) with _ | _
    · rcases hb2 : decide (0 < d.count_with_template w) with _ | _
      · rfl
      · rw [decide_eq_true_eq] at hb2
        rw [hcnt] at hb2
        rw [← decide_eq_true_eq (p := 0 < d'.count_with_template w)] at hb2
        rw [hb] at hb2
        exact absurd hb2 (by simp)
    · rw [decide_eq_true_eq] at hb ⊢
      rw [hcnt]
      exact hb
  rw [this]

theorem valid_letter_congr {d d' : Dictionary}
    (hdd : ∀ w, w ∈ d.words ↔ w ∈ d'.words) {m n : MagicSquare}
    (hsq : m.square = n.square) (hmd : m.dict = d) (hnd : n.dict = d')
    (row col : Nat) (c : Char) :
    m.is_valid_letter row col c = n.is_valid_letter row col c := by
  unfold MagicSquare.is_valid_letter MagicSquare.get_row MagicSquare.get_col
  rw [hsq]
  rcases n.square[row]? with _ | ww
  · rfl
  · simp only
    rw [valid_congr hdd hmd hnd (substAt ww col c)]
    rcases colAux n.square col with _ | ww'
    · rfl
    · simp only
      rw [valid_congr hdd hmd hnd (substAt ww' row c)]

theorem set_congr {m n : MagicSquare} (hsq : m.square = n.square)
    (row col : Nat) (c : Char) :
    (m.set row col c = none ∧ n.set row col c = none) ∨
    (∃ m1 n1, m.set row col c = some m1 ∧ n.set row col c = some n1 ∧
      m1.square = n1.square ∧ m1.dict = m.dict ∧ n1.dict = n.dict) := by
  rcases hms : m.set row col c with _ | m1
  · rcases hns : n.set row col c with _ | n1
    · exact Or.inl ⟨rfl, rfl⟩
    · obtain ⟨r, hr, hcl⟩ := set_bounds hns
      rw [← hsq] at hr
      obtain ⟨m1, hm1⟩ := set_some_of_bounds m c hr hcl
      rw [hm1] at hms
      exact absurd hms (by simp)
  · rcases hns : n.set row col c with _ | n1
    · obtain ⟨r, hr, hcl⟩ := set_bounds hms
      rw [hsq] at hr
      obtain ⟨n1, hn1⟩ := set_some_of_bounds n c hr hcl
      rw [hn1] at hns
      exact absurd hns (by simp)
    · refine Or.inr ⟨m1, n1, rfl, rfl, ?_, (set_spec hms).1, (set_spec hns).1⟩
      obtain ⟨rm, hrm, _, hm1row, hm1ne⟩ := set_rows hms
      obtain ⟨rn, hrn, _, hn1row, hn1ne⟩ := set_rows hns
      have hrr : rm = rn := by
        rw [hsq] at hrm
        rw [hrm] at hrn
        simpa using hrn
      apply List.ext_getElem?
      intro i
      by_cases hi : i = row
      · rw [hi, hm1row, hn1row, hrr]
      · rw [hm1ne i hi, hn1ne i hi, hsq]

theorem tryLetters_observe_congr {d d' : Dictionary}
    (hdd : ∀ w, w ∈ d.words ↔ w ∈ d'.words)
    {recurM recurN : MagicSquare → FillOutcome} {row col : Nat}
    (hrec : ∀ m1 n1 : MagicSquare, m1.square = n1.square →
      m1.dict = d → n1.dict = d' →
      (recurM m1).observe = (recurN n1).observe)
    (hrecdM : ∀ (m1 m2 : MagicSquare) (res : Except String Unit),
      recurM m1 = .done m2 res → m2.dict = m1.dict)
    (hrecdN : ∀ (n1 n2 : MagicSquare) (res : Except String Unit),
      recurN n1 = .done n2 res → n2.dict = n1.dict) :
    ∀ (letters : List Char) (m n : MagicSquare), m.square = n.square →
      m.dict = d → n.dict = d' →
      (tryLetters recurM m row col letters).observe =
        (tryLetters recurN n row col letters).observe := by
  intro letters
  induction letters with
  | nil =>
    intro m n hsq hmd hnd
    unfold tryLetters
    rcases set_congr hsq row col '_' with ⟨h1, h2⟩ | ⟨m1, n1, h1, h2, h3, _, _⟩
    · rw [h1, h2]
    · rw [h1, h2]
      simp [FillOutcome.observe, h3]
  | cons c rest ih =>
    intro m n hsq hmd hnd
    unfold tryLetters
    rw [valid_letter_congr hdd hsq hmd hnd row col c]
    rcases n.is_valid_letter row col c with _ | b
    · rfl
    · cases b with
      | false => exact ih m n hsq hmd hnd
      | true =>
        simp only
        rcases set_congr hsq row col c with ⟨h1, h2⟩ | ⟨m1, n1, h1, h2, h3, h4, h5⟩
        · rw [h1, h2]
        · rw [h1, h2]
          simp only
          have hobs := hrec m1 n1 h3 (h4.trans hmd) (h5.trans hnd)
          rcases hrm : recurM m1 with _ | _ | ⟨m2, res2⟩
          · rw [hrm] at hobs
            rcases hrn : recurN n1 with _ | _ | ⟨n2, res2'⟩
            · rfl
            · rw [hrn] at hobs; exact absurd hobs (by simp [FillOutcome.observe])
            · rw [hrn] at hobs; exact absurd hobs (by simp [FillOutcome.observe])
          · rw [hrm] at hobs
            rcases hrn : recurN n1 with _ | _ | ⟨n2, res2'⟩
            · rw [hrn] at hobs; exact absurd hobs (by simp [FillOutcome.observe])
            · rfl
            · rw [hrn] at hobs; exact absurd hobs (by simp [FillOutcome.observe])
          · rw [hrm] at hobs
            rcases hrn : recurN n1 with _ | _ | ⟨n2, res2'⟩
            · rw [hrn] at hobs; exact absurd hobs (by simp [FillOutcome.observe])
            · rw [hrn] at hobs; exact absurd hobs (by simp [FillOutcome.observe])
            · rw [hrn] at hobs
              simp only [FillOutcome.observe, ObsOutcome.done.injEq] at hobs
              obtain ⟨hsq2, hres2⟩ := hobs
              subst hres2
              cases res2 with
              | ok u =>
                simp [FillOutcome.observe, hsq2]
              | error e =>
                exact ih m2 n2 hsq2
                  ((hrecdM m1 m2 (.error e) hrm).trans (h4.trans hmd))
                  ((hrecdN n1 n2 (.error e) hrn).trans (h5.trans hnd))

theorem fill_helper_observe_congr {d d' : Dictionary}
    (hdd : ∀ w, w ∈ d.words ↔ w ∈ d'.words) :
    ∀ (fuel : Nat) (m n : MagicSquare) (row col : Nat),
      m.square = n.square → m.dict = d → n.dict = d' →
      (fill_helper fuel m row col).observe =
        (fill_helper fuel n row col).observe := by
  intro fuel
  induction fuel with
  | zero => intro m n row col _ _ _; rfl
  | succ fuel ih =>
    intro m n row col hsq hmd hnd
    unfold fill_helper
    rw [hsq]
    by_cases hlen : row = n.square.length
    · simp only [if_pos hlen]
      simp [FillOutcome.observe, hsq]
    · simp only [if_neg hlen]
      rcases n.square[row]? with _ | r
      · rfl
      · simp only
        by_cases hc : col = r.length
        · simp only [if_pos hc]
          exact ih m n (row + 1) 0 hsq hmd hnd
        · simp only [if_neg hc]
          apply tryLetters_observe_congr hdd ?_ ?_ ?_ alphabet m n hsq hmd hnd
          · intro m1 n1 hsq1 hmd1 hnd1
            exact ih m1 n1 row (col + 1) hsq1 hmd1 hnd1
          · intro m1 m2 res2 h2
            exact (fill_helper_preserve fuel m1 row (col + 1) m2 res2 h2).2.1
          · intro n1 n2 res2 h2
            exact (fill_helper_preserve fuel n1 row (col + 1) n2 res2 h2).2.1

/-! ## Final helpers for the claim statements -/

/-- Cells strictly before the first empty cell, in row-major order, hold
concrete (non-wildcard) letters. -/
theorem findFirst_before {m : MagicSquare} {r0 c0 : Nat}
    (hfind : m.find_first_empty_square = some (r0, c0)) :
    ∀ (i j : Nat) (ch : Char), getCell m.square i j = some ch →
      posLt (i, j) (r0, c0) → ch ≠ '_' := by
  unfold MagicSquare.find_first_empty_square at hfind
  obtain ⟨k, hk, rw0, hrow, hcc, hbefore, hprev⟩ :=
    findFirstAux_spec m.square 0 r0 c0 hfind
  have hk0 : r0 = k := by omega
  intro i j ch hch hlt
  rw [posLt_iff] at hlt
  rw [getCell_eq_bind] at hch
  rcases hgi : m.square[i]? with _ | ri
  · rw [hgi] at hch; exact absurd hch (by simp)
  · rw [hgi] at hch
    simp only [Option.some_bind] at hch
    rcases hlt with hlt | ⟨hieq, hjlt⟩
    · exact hprev i (by omega) ri hgi j ch hch
    · have hri : ri = rw0 := by
        rw [hieq, hk0, hrow] at hgi
        exact Eq.symm (by simpa using hgi)
      rw [hri] at hch
      exact hbefore j hjlt ch hch

/-- On an all-wildcard rectangular grid the first empty cell is `(0, 0)`,
and both dimensions are positive. -/
theorem findFirst_blank {m : MagicSquare} {rows cols r0 c0 : Nat}
    (hsh : gridShape m.square = List.replicate rows cols)
    (hblank : ∀ (i j : Nat) (ch : Char), getCell m.square i j = some ch → ch = '_')
    (hfind : m.find_first_empty_square = some (r0, c0)) :
    r0 = 0 ∧ c0 = 0 ∧ 0 < rows ∧ 0 < cols := by
  unfold MagicSquare.find_first_empty_square at hfind
  obtain ⟨k, hk, rw0, hrow, hcc, hbefore, hprev⟩ :=
    findFirstAux_spec m.square 0 r0 c0 hfind
  obtain ⟨hrwlen, hklt⟩ := rowlen_of_shape hsh hrow
  have hc0 : c0 < cols := by rw [← hrwlen]; exact lt_of_getElem?_some hcc
  have hrows : 0 < rows := by omega
  have hcols : 0 < cols := by omega
  have hk0 : k = 0 := by
    by_contra hkne
    obtain ⟨r', hr', hr'len⟩ := row_of_shape hsh hrows
    have hch : r'[0]? = some (r'.get ⟨0, by omega⟩) :=
      List.getElem?_eq_getElem (by omega)
    have hne := hprev 0 (by omega) r' hr' 0 _ hch
    exact hne (hblank 0 0 _ (by rw [getCell_eq_bind, hr']; simp [hch]))
  have hc00 : c0 = 0 := by
    by_contra hcne
    have hch : rw0[0]? = some (rw0.get ⟨0, by omega⟩) :=
      List.getElem?_eq_getElem (by omega)
    have hne := hbefore 0 (by omega) _ hch
    exact hne (hblank k 0 _ (by rw [getCell_eq_bind, hrow]; simp [hch]))
  exact ⟨by omega, hc00, hrows, hcols⟩

theorem hsInsert_mem {acc : List (List Char)} {x w : List Char}
    (h : w ∈ hsInsert acc x) : w ∈ acc ∨ w = x := by
  unfold hsInsert at h
  by_cases hx : x ∈ acc
  · rw [if_pos hx] at h
    exact Or.inl h
  · rw [if_neg hx] at h
    rcases List.mem_append.1 h with h | h
    · exact Or.inl h
    · exact Or.inr (by simpa using h)

theorem fromFileLoop_mem :
    ∀ (lines : List (Except String (List Char))) (acc ws : List (List Char)),
      fromFileLoop acc lines = .ok ws →
      ∀ w ∈ ws, w ∈ acc ∨ Except.ok w ∈ lines := by
  intro lines
  induction lines with
  | nil =>
    intro acc ws h w hw
    unfold fromFileLoop at h
    cases h
    exact Or.inl hw
  | cons x rest ih =>
    intro acc ws h w hw
    unfold fromFileLoop at h
    match x with
    | .error e => exact absurd h (by simp)
    | .ok line =>
      rcases ih (hsInsert acc line) ws h w hw with hmem | hmem
      · rcases hsInsert_mem hmem with hmem | hmem
        · exact Or.inl hmem
        · exact Or.inr (by simp [hmem])
      · exact Or.inr (by simp [hmem])

theorem foldl_hsInsert_mem :
    ∀ (ls acc : List (List Char)) (w : List Char),
      w ∈ ls.foldl hsInsert acc → w ∈ acc ∨ w ∈ ls := by
  intro ls
  induction ls with
  | nil => intro acc w h; exact Or.inl h
  | cons x rest ih =>
    intro acc w h
    rcases ih (hsInsert acc x) w h with hmem | hmem
    · rcases hsInsert_mem hmem with hmem | hmem
      · exact Or.inl hmem
      · exact Or.inr (by simp [hmem])
    · exact Or.inr (by simp [hmem])

/-! ## The claims -/

/-- C1 (counterexample): as stated the claim is false.  Seeding the cell
`(0,0)` of a 2×1 grid with `'x'` (dictionary {"b", "xb"}) lets `fill()`
succeed — columns are validated, but row 0, which lies wholly before the
first empty cell, is never checked: the result contains row "x", and
`contains "x"` is false. -/
theorem fill_ok_with_preseeded_row_not_in_dict :
    MagicSquare.fill 10 ⟨[['x'], ['_']], ⟨[['b'], ['x', 'b']]⟩, 0⟩ =
      .done ⟨[['x'], ['b']], ⟨[['b'], ['x', 'b']]⟩, 0⟩ (.ok ()) ∧
    (['x'] ∈ ([['x'], ['b']] : List (List Char))) ∧
    Dictionary.contains ⟨[['b'], ['x', 'b']]⟩ ['x'] = false := by decide

/-- C1 (amended): if every cell holds the wildcard `'_'` when `fill()` is
called (a rectangular grid) and `fill()` succeeds, then every row string
and every column string of the resulting grid is a member of the
dictionary (`contains` returns true on it). -/
theorem fill_ok_blank_grid_rows_cols_in_dict
    (fuel rows cols : Nat) (m m' : MagicSquare)
    (hsh : gridShape m.square = List.replicate rows cols)
    (hblank : ∀ (i j : Nat) (ch : Char), getCell m.square i j = some ch → ch = '_')
    (hfill : MagicSquare.fill fuel m = .done m' (.ok ())) :
    (∀ l ∈ m'.square, m.dict.contains l = true) ∧
    (∀ j : Nat, j < cols →
      ∃ l, m'.get_col j = some l ∧ m.dict.contains l = true) := by
  unfold MagicSquare.fill at hfill
  rcases hfind : m.find_first_empty_square with _ | ⟨r0, c0⟩
  · rw [hfind] at hfill; exact absurd hfill (by simp)
  · rw [hfind] at hfill
    obtain ⟨hr00, hc00, hrows, hcols⟩ := findFirst_blank hsh hblank hfind
    subst hr00
    subst hc00
    have hInv : Inv m.dict rows cols m.square 0 0 := by
      refine ⟨hsh, ?_, ?_, ?_⟩
      · intro i j ch _ hlt
        rw [posLt_iff] at hlt
        exact absurd hlt (by omega)
      · intro i _ hq
        have h5 := hq 0 hcols
        rw [posLt_iff] at h5
        exact absurd h5 (by omega)
      · intro j _ hq
        have h5 := hq 0 hrows
        rw [posLt_iff] at h5
        exact absurd h5 (by omega)
    have hAll := fill_helper_success fuel m 0 0 m' hInv rfl hfill
    constructor
    · intro l hl
      obtain ⟨i, hi⟩ := List.mem_iff_getElem?.1 hl
      have hsh' : gridShape m'.square = List.replicate rows cols :=
        (fill_helper_preserve fuel m 0 0 m' (.ok ()) hfill).1.trans hsh
      have hilt : i < rows := by
        have h6 := lt_of_getElem?_some hi
        rw [length_of_shape hsh'] at h6
        exact h6
      obtain ⟨l2, hl2, hcont⟩ := hAll.1 i hilt
      rw [hi] at hl2
      have : l = l2 := by simpa using hl2
      rw [this]
      exact hcont
    · intro j hj
      obtain ⟨l, hl, hcont⟩ := hAll.2 j hj
      exact ⟨l, hl, hcont⟩

theorem fill_ok_blank_grid_rows_cols_in_dict_witness :
    (∀ l ∈ (MagicSquare.mk [['a', 'b']] ⟨[['a', 'b'], ['a'], ['b']]⟩ 0).square,
      (MagicSquare.mk [['_', '_']] ⟨[['a', 'b'], ['a'], ['b']]⟩ 0).dict.contains l
        = true) ∧
    (∀ j : Nat, j < 2 →
      ∃ l, (MagicSquare.mk [['a', 'b']] ⟨[['a', 'b'], ['a'], ['b']]⟩ 0).get_col j
          = some l ∧
        (MagicSquare.mk [['_', '_']] ⟨[['a', 'b'], ['a'], ['b']]⟩ 0).dict.contains l
          = true) :=
  fill_ok_blank_grid_rows_cols_in_dict 10 1 2 _ _ (by decide)
    (fun i j ch h => by
      obtain ⟨hi, hj⟩ := getCell_bounds
        (show gridShape [['_', '_']] = List.replicate 1 2 by decide) h
      interval_cases i
      interval_cases j <;> exact (Option.some.inj h).symm)
    (by decide)

/-- C2 (counterexample): as stated the claim is false.  Pre-assigning
`'b'` to cell `(0,1)` of a 1×2 grid (dictionary {"ab", "aa", "a"}) and
calling `fill()` succeeds with that cell overwritten to `'a'`: the search
does assign to cells that were pre-set, because `fill_helper` never skips
already-filled cells after the first empty one. -/
theorem fill_overwrites_preassigned_cell :
    MagicSquare.fill 10 ⟨[['_', 'b']], ⟨[['a', 'b'], ['a', 'a'], ['a']]⟩, 0⟩ =
      .done ⟨[['a', 'a']], ⟨[['a', 'b'], ['a', 'a'], ['a']]⟩, 0⟩ (.ok ()) ∧
    getCell [['_', 'b']] 0 1 = some 'b' ∧
    getCell [['a', 'a']] 0 1 = some 'a' ∧ ('a' : Char) ≠ 'b' := by decide

/-- C2 (amended): cells strictly before the first wildcard cell in
row-major order — all of which hold concrete letters — are never touched:
whatever `fill()` returns, they keep their original contents.
(Pre-assigned cells at or after the first wildcard may be overwritten.) -/
theorem fill_preserves_cells_before_first_empty
    (fuel : Nat) (m m' : MagicSquare) (res : Except String Unit)
    (r0 c0 : Nat)
    (hfind : m.find_first_empty_square = some (r0, c0))
    (hdone : MagicSquare.fill fuel m = .done m' res)
    (i j : Nat) (hlt : posLt (i, j) (r0, c0)) :
    getCell m'.square i j = getCell m.square i j ∧
    (∀ ch : Char, getCell m.square i j = some ch → ch ≠ '_') := by
  constructor
  · unfold MagicSquare.fill at hdone
    rw [hfind] at hdone
    exact (fill_helper_preserve fuel m r0 c0 m' res hdone).2.2 i j hlt
  · intro ch hch
    exact findFirst_before hfind i j ch hch hlt

theorem fill_preserves_cells_before_first_empty_witness :
    (MagicSquare.find_first_empty_square
      ⟨[['x'], ['_']], ⟨[['b'], ['x', 'b']]⟩, 0⟩ = some (1, 0)) ∧
    (MagicSquare.fill 10 ⟨[['x'], ['_']], ⟨[['b'], ['x', 'b']]⟩, 0⟩ =
      .done ⟨[['x'], ['b']], ⟨[['b'], ['x', 'b']]⟩, 0⟩ (.ok ())) ∧
    (getCell [['x'], ['b']] 0 0 = getCell [['x'], ['_']] 0 0 ∧
      ∀ ch : Char, getCell [['x'], ['_']] 0 0 = some ch → ch ≠ '_') :=
  ⟨by decide, by decide,
    fill_preserves_cells_before_first_empty 10
      ⟨[['x'], ['_']], ⟨[['b'], ['x', 'b']]⟩, 0⟩
      ⟨[['x'], ['b']], ⟨[['b'], ['x', 'b']]⟩, 0⟩ (.ok ()) 1 0
      (by decide) (by decide) 0 0 (by decide)⟩

/-- C3: if `fill()` returns failure, every cell that held the wildcard
`'_'` when `fill()` was called holds `'_'` again when it returns: every
failing frame of `fill_helper` resets its own cell on the way out, so no
partially assigned letters remain. -/
theorem fill_error_restores_wildcards
    (fuel : Nat) (m m' : MagicSquare) (e : String)
    (h : MagicSquare.fill fuel m = .done m' (.error e))
    (i j : Nat) (hij : getCell m.square i j = some '_') :
    getCell m'.square i j = some '_' := by
  unfold MagicSquare.fill at h
  rcases hf : m.find_first_empty_square with _ | ⟨r0, c0⟩
  · rw [hf] at h; exact absurd h (by simp)
  · rw [hf] at h
    rcases fill_helper_err fuel m r0 c0 m' e h i j with h5 | h5
    · rw [h5]; exact hij
    · exact h5

theorem fill_error_restores_wildcards_witness :
    MagicSquare.fill 5 ⟨[['_']], ⟨[['a', 'a']]⟩, 0⟩ =
      .done ⟨[['_']], ⟨[['a', 'a']]⟩, 0⟩
        (.error "Could not fill square at (0, 0)") ∧
    getCell [['_']] 0 0 = some '_' ∧
    getCell [['_']] 0 0 = some '_' :=
  ⟨by decide, by decide,
    fill_error_restores_wildcards 5 ⟨[['_']], ⟨[['a', 'a']]⟩, 0⟩
      ⟨[['_']], ⟨[['a', 'a']]⟩, 0⟩ "Could not fill square at (0, 0)"
      (by decide) 0 0 (by decide)⟩

/-- C4: the claim describes the spec's intent, but the code panics: on a
grid with no `'_'` cell, `find_first_empty_square` returns `None` and
`fill` immediately calls `.unwrap()` on it — modelled as the `panic`
outcome — instead of returning success, for every dictionary and fuel. -/
theorem fill_panics_on_complete_grid (fuel : Nat) (d : Dictionary) (a : Nat) :
    MagicSquare.fill fuel ⟨[['a']], d, a⟩ = .panic := rfl

/-- C5: a stored word `w` is an element of `search_with_template t` iff
`w` and `t` have equal length and every non-wildcard character of the
lowercased template equals the corresponding character of `w`; in
particular a word whose length differs from the template's is never
returned. -/
theorem search_with_template_membership (d : Dictionary) (t w : List Char)
    (hw : w ∈ d.words) :
    w ∈ d.search_with_template t ↔
      (w.length = t.length ∧
        ∀ (i : Nat) (c : Char), (t.map Char.toLower)[i]? = some c →
          c ≠ '_' → w[i]? = some c) := by
  rw [mem_search_iff]
  rw [wordMatchesTemplate_iff]
  simp [hw]

theorem search_with_template_membership_witness :
    ((['a', 'b'] : List Char) ∈ (Dictionary.mk [['a', 'b']]).words) ∧
    ((['a', 'b'] : List Char) ∈
        (Dictionary.mk [['a', 'b']]).search_with_template ['A', '_'] ↔
      ((['a', 'b'] : List Char).length = (['A', '_'] : List Char).length ∧
        ∀ (i : Nat) (c : Char),
          ((['A', '_'] : List Char).map Char.toLower)[i]? = some c →
          c ≠ '_' → (['a', 'b'] : List Char)[i]? = some c)) :=
  ⟨by decide, search_with_template_membership _ _ _ (by decide)⟩

/-- C6: `count_with_template t` equals the length of
`search_with_template t` (it is defined as exactly that), and hence is
positive iff the search result is non-empty. -/
theorem count_with_template_matches_search (d : Dictionary) (t : List Char) :
    d.count_with_template t = (d.search_with_template t).length ∧
    (0 < d.count_with_template t ↔ d.search_with_template t ≠ []) := by
  refine ⟨rfl, ?_⟩
  unfold Dictionary.count_with_template
  constructor
  · intro h hnil
    rw [hnil] at h
    simp at h
  · intro h
    exact List.length_pos.2 h

/-- C7: the fill is deterministic: two runs on the same grid whose
dictionaries have the same membership (the `HashSet` contents, whatever
iteration order it would enumerate them in) produce the same observable
outcome — same result value and byte-identical final grids.  Letters are
tried in the fixed order a..z and cells in fixed row-major order, and the
dictionary is consulted only through `contains` and
`count_with_template > 0`, which depend only on membership. -/
theorem fill_deterministic_dict_membership
    (fuel : Nat) (g : List (List Char)) (d d' : Dictionary) (a a' : Nat)
    (hdd : ∀ w : List Char, w ∈ d.words ↔ w ∈ d'.words) :
    (MagicSquare.fill fuel ⟨g, d, a⟩).observe =
      (MagicSquare.fill fuel ⟨g, d', a'⟩).observe := by
  unfold MagicSquare.fill MagicSquare.find_first_empty_square
  simp only
  rcases findFirstAux g 0 with _ | ⟨r0, c0⟩
  · rfl
  · exact fill_helper_observe_congr hdd fuel ⟨g, d, a⟩ ⟨g, d', a'⟩ r0 c0
      rfl rfl rfl

theorem fill_deterministic_dict_membership_witness :
    (∀ w : List Char,
      w ∈ (Dictionary.mk [['a'], ['b']]).words ↔
        w ∈ (Dictionary.mk [['b'], ['a']]).words) ∧
    (MagicSquare.fill 4 ⟨[['_']], ⟨[['a'], ['b']]⟩, 0⟩).observe =
      (MagicSquare.fill 4 ⟨[['_']], ⟨[['b'], ['a']]⟩, 0⟩).observe := by
  have hdd : ∀ w : List Char,
      w ∈ (Dictionary.mk [['a'], ['b']]).words ↔
        w ∈ (Dictionary.mk [['b'], ['a']]).words := by
    intro w
    simp only [List.mem_cons, List.not_mem_nil, or_false]
    tauto
  exact ⟨hdd, fill_deterministic_dict_membership 4 [['_']] _ _ 0 0 hdd⟩

/-- C8 (counterexample): as stated the claim is false. `from_file` does
not lowercase: the line "A" is stored verbatim as "A" (not lowercase),
and a lowercase `contains "a"` query then fails. -/
theorem from_file_stores_words_verbatim_not_lowercased :
    Dictionary.from_file (.ok [.ok ['A']]) = .ok ⟨[['A']]⟩ ∧
    Dictionary.contains ⟨[['A']]⟩ ['a'] = false ∧
    Char.isLower 'A' = false := by decide

/-- C8 (amended): `from_os_dict` lowercases every word before storing it
(every stored word is the lowercasing of a line of the command output);
`from_file` stores the lines of the file verbatim, with no lowercasing
(its documentation asks for an already-lowercase file); both return a
descriptive `Err(String)` value — not a crash — when the source is
unreadable or its contents invalid. -/
theorem dictionary_constructors_amended :
    (∀ e : String, Dictionary.from_file (.error e) = .error e) ∧
    (∀ (lines : List (Except String (List Char))) (d : Dictionary),
      Dictionary.from_file (.ok lines) = .ok d →
      ∀ w ∈ d.words, Except.ok w ∈ lines) ∧
    (∀ e : String, Dictionary.from_os_dict (.error e) = .error e) ∧
    (∀ s : Except String (List Char),
      Dictionary.from_os_dict (.ok ⟨false, s⟩) =
        .error "Could not read OS dictionary") ∧
    (∀ e : String, Dictionary.from_os_dict (.ok ⟨true, .error e⟩) = .error e) ∧
    (∀ (s : List Char) (d : Dictionary),
      Dictionary.from_os_dict (.ok ⟨true, .ok s⟩) = .ok d →
      ∀ w ∈ d.words, ∃ l ∈ rustLines s, w = l.map Char.toLower) := by
  refine ⟨fun e => rfl, ?_, fun e => rfl, fun s => rfl, fun e => rfl, ?_⟩
  · intro lines d h w hw
    unfold Dictionary.from_file at h
    simp only at h
    rcases hloop : fromFileLoop [] lines with e | ws
    · rw [hloop] at h; exact absurd h (by simp)
    · rw [hloop] at h
      simp only at h
      have hd : Dictionary.mk ws = d := by simpa using h
      subst hd
      rcases fromFileLoop_mem lines [] ws hloop w hw with hmem | hmem
      · exact absurd hmem (by simp)
      · exact hmem
  · intro s d h w hw
    unfold Dictionary.from_os_dict at h
    simp only at h
    rw [if_neg (fun hc => hc trivial)] at h
    have hd : Dictionary.mk
        (((rustLines s).map (fun l => l.map Char.toLower)).foldl hsInsert []) = d := by
      simpa using h
    subst hd
    rcases foldl_hsInsert_mem _ [] w hw with hmem | hmem
    · exact absurd hmem (by simp)
    · obtain ⟨l, hl, hlw⟩ := List.mem_map.1 hmem
      exact ⟨l, hl, hlw.symm⟩

theorem dictionary_constructors_amended_witness :
    Dictionary.from_os_dict (.ok ⟨true, .ok ['A', '\n', 'b']⟩) =
      .ok ⟨[['a'], ['b']]⟩ ∧
    (∀ w ∈ (Dictionary.mk [['a'], ['b']]).words,
      ∃ l ∈ rustLines ['A', '\n', 'b'], w = l.map Char.toLower) :=
  ⟨by decide,
    dictionary_constructors_amended.2.2.2.2.2 ['A', '\n', 'b'] _ (by decide)⟩

/-- C9 (counterexample): as stated the claim is false.  On a 1×1 grid
(`rows × cols = 1`) with dictionary {"a"}, a stack budget of
`rows × cols = 1` frames is exhausted (`timeout`), while a budget of 3
frames completes: the recursion depth exceeds `rows × cols`. -/
theorem fill_depth_exceeds_rows_mul_cols :
    MagicSquare.fill 1 ⟨[['_']], ⟨[['a']]⟩, 0⟩ = .timeout ∧
    MagicSquare.fill 3 ⟨[['_']], ⟨[['a']]⟩, 0⟩ =
      .done ⟨[['a']], ⟨[['a']]⟩, 0⟩ (.ok ()) := by decide

/-- C9 (amended): `fill()` terminates, and the recursion depth is bounded
by `(rows + 1) × (cols + 1)` (tighter: `rows × (cols + 1) + 1`): with any
stack budget of at least `(rows + 1) × (cols + 1)` frames the search
never exhausts it, on any rectangular grid and any dictionary. -/
theorem fill_no_timeout_with_fuel_bound
    (fuel rows cols : Nat) (m : MagicSquare)
    (hsh : gridShape m.square = List.replicate rows cols)
    (hfuel : (rows + 1) * (cols + 1) ≤ fuel) :
    MagicSquare.fill fuel m ≠ .timeout := by
  unfold MagicSquare.fill
  rcases hfind : m.find_first_empty_square with _ | ⟨r0, c0⟩
  · simp
  · unfold MagicSquare.find_first_empty_square at hfind
    obtain ⟨k, hk, rw0, hrow, hcc, _, _⟩ :=
      findFirstAux_spec m.square 0 r0 c0 hfind
    obtain ⟨hrl, hklt⟩ := rowlen_of_shape hsh hrow
    have hr0 : r0 < rows := by omega
    have hc0 : c0 < cols := by rw [← hrl]; exact lt_of_getElem?_some hcc
    apply fill_helper_no_timeout fuel m r0 c0 hsh (by omega) (by omega)
    have h1 : (rows - r0) * (cols + 1) ≤ rows * (cols + 1) :=
      Nat.mul_le_mul_right _ (by omega)
    have h2 : (rows + 1) * (cols + 1) = rows * (cols + 1) + (cols + 1) :=
      Nat.succ_mul rows (cols + 1)
    omega

theorem fill_no_timeout_with_fuel_bound_witness :
    gridShape [['_']] = List.replicate 1 1 ∧ (1 + 1) * (1 + 1) ≤ 4 ∧
    MagicSquare.fill 4 ⟨[['_']], ⟨[['a']]⟩, 0⟩ ≠ .timeout :=
  ⟨by decide, by decide,
    fill_no_timeout_with_fuel_bound 4 1 1 _ (by decide) (by decide)⟩

/-- C10: `set` and `get` index the grid without any bounds validation:
whenever `row` is at least the number of rows, or `col` at least the
length of the indexed row, the embedded operation yields `none` (the Rust
code panics on the out-of-range `Vec` index); no index check precedes the
access. -/
theorem get_set_out_of_range (m : MagicSquare) (row col : Nat) (c : Char) :
    (m.square.length ≤ row →
      m.get row col = none ∧ m.set row col c = none) ∧
    (∀ r, m.square[row]? = some r → r.length ≤ col →
      m.get row col = none ∧ m.set row col c = none) := by
  constructor
  · intro h
    have hn : m.square[row]? = none := List.getElem?_eq_none h
    unfold MagicSquare.get MagicSquare.set
    rw [hn]
    exact ⟨rfl, rfl⟩
  · intro r hr h
    unfold MagicSquare.get MagicSquare.set
    rw [hr]
    simp only
    constructor
    · exact List.getElem?_eq_none h
    · rw [if_neg (by omega)]

theorem get_set_out_of_range_witness :
    MagicSquare.get ⟨[['a']], ⟨[]⟩, 0⟩ 1 0 = none ∧
    MagicSquare.set ⟨[['a']], ⟨[]⟩, 0⟩ 1 0 'z' = none :=
  (get_set_out_of_range ⟨[['a']], ⟨[]⟩, 0⟩ 1 0 'z').1 (by decide)

end MagicSquareRepo
